import Mathlib

/-!
Verification of the calculator layer of oq-risklib.

Python dictionaries are embedded as functions `K → Option V` (`none` marks an
absent key); NumPy arrays as Lean lists; floating-point values as rationals.
Code living in `openquake.baselib` / `openquake.risklib.scientific`, which is
referenced by the calculators but not part of the excerpt, is modelled from the
specification and marked as such in its doc comment.
-/

/-- Modelled from the spec: lookup in an `AccumDict`
(`openquake.baselib.general`, not in the excerpt).  Per §3, an Accumulator has
"an identity element ('zero value') equal to the pre-initialized default for
unseen keys": looking up an unseen key yields the zero value. -/
def accum_get {K V : Type} (d : K → Option V) (zero : V) (k : K) : V :=
  (d k).getD zero

/-- `agg_dicts(acc, val)` from `classical.py`: the loop
`for key in val: acc[key] = agg_curves(acc[key], val[key])` updates each key of
`val` independently, so its net effect at key `k` is: if `val` holds `k`,
store `agg_curves(acc[k], val[k])` (with the accumulator's default for an
unseen `k`), otherwise leave `acc` unchanged at `k`.  The per-key merge
`agg_curves` comes from `openquake.hazardlib` and is kept abstract. -/
def agg_dicts {K V : Type} (agg : V → V → V) (zero : V)
    (acc val : K → Option V) : K → Option V :=
  fun k =>
    match val k with
    | some v => some (agg (accum_get acc zero k) v)
    | none => acc k

/-- The action of one `agg_dicts` step at a single key, on `Option` values. -/
def agg_opt {V : Type} (agg : V → V → V) (zero : V) (a b : Option V) : Option V :=
  match b with
  | some v => some (agg (a.getD zero) v)
  | none => a

/-- Claim C1: `agg_dicts(acc, val)` returns an accumulator whose key set is the
union of the key sets of `acc` and `val`; a key present in both holds
`agg_curves` of the two values, a key present in only one of the two holds that
accumulator's value unchanged; in particular the merge succeeds for a key of
`val` absent from `acc` (the unseen-key default being the identity of the
merge). -/
theorem agg_dicts_merges_keywise {K V : Type} (agg : V → V → V) (zero : V)
    (hz : ∀ v, agg zero v = v) (acc val : K → Option V) (k : K) :
    (agg_dicts agg zero acc val k = none ↔ acc k = none ∧ val k = none)
    ∧ (val k = none → agg_dicts agg zero acc val k = acc k)
    ∧ (acc k = none → agg_dicts agg zero acc val k = val k)
    ∧ (acc k ≠ none → val k ≠ none →
        agg_dicts agg zero acc val k
          = some (agg ((acc k).getD zero) ((val k).getD zero))) := by
  refine ⟨?_, ?_, ?_, ?_⟩ <;>
    cases hacc : acc k <;> cases hval : val k <;>
      simp [agg_dicts, accum_get, hacc, hval, hz]

/-- A concrete accumulator holding only key `0`. -/
def accC1 : Nat → Option Nat := fun k => if k = 0 then some 1 else none

/-- A concrete partial result holding only key `1`. -/
def valC1 : Nat → Option Nat := fun k => if k = 1 then some 2 else none

/-- Witness for C1: merging at a key of `val` that is absent from `acc`
succeeds and keeps the partial result's value. -/
theorem agg_dicts_merges_keywise_witness :
    agg_dicts (fun a b => a + b) 0 accC1 valC1 1 = valC1 1 :=
  (agg_dicts_merges_keywise (fun a b => a + b) 0
    (fun v => Nat.zero_add v) accC1 valC1 1).2.2.1 rfl

/-- Folding with a right-commutative step is invariant under permutation of
the list being folded. -/
theorem foldl_right_comm {α β : Type} (f : β → α → β)
    (h : ∀ b a₁ a₂, f (f b a₁) a₂ = f (f b a₂) a₁) :
    ∀ {l₁ l₂ : List α}, l₁.Perm l₂ → ∀ b, l₁.foldl f b = l₂.foldl f b := by
  intro l₁ l₂ p
  induction p with
  | nil => intro b; rfl
  | cons x _ ih => intro b; simpa using ih (f b x)
  | swap x y l => intro b; simp only [List.foldl]; rw [h]
  | trans _ _ ih₁ ih₂ => intro b; rw [ih₁, ih₂]

/-- Pointwise description of folding a list of partial dictionaries with
`agg_dicts`: at each key the fold acts like the `Option`-level fold of the
values at that key. -/
theorem agg_dicts_foldl_pointwise {K V : Type} (agg : V → V → V) (zero : V) :
    ∀ (l : List (K → Option V)) (init : K → Option V) (k : K),
      (l.foldl (agg_dicts agg zero) init) k
        = (l.map (fun d => d k)).foldl (agg_opt agg zero) (init k) := by
  intro l
  induction l with
  | nil => intro init k; rfl
  | cons d ds ih =>
      intro init k
      simp only [List.foldl, List.map]
      rw [ih]
      rfl

/-- Claim C2: folding partial accumulators into an initial accumulator with
`agg_dicts` is independent of arrival order, by commutativity/associativity
of the per-key merge. -/
theorem agg_dicts_reduce_perm_invariant {K V : Type} (agg : V → V → V) (zero : V)
    (hcomm : ∀ a b, agg a b = agg b a)
    (hassoc : ∀ a b c, agg (agg a b) c = agg a (agg b c))
    {l₁ l₂ : List (K → Option V)} (hperm : l₁.Perm l₂) (init : K → Option V) :
    l₁.foldl (agg_dicts agg zero) init = l₂.foldl (agg_dicts agg zero) init := by
  have rc : ∀ (a : Option V) (b₁ b₂ : Option V),
      agg_opt agg zero (agg_opt agg zero a b₁) b₂
        = agg_opt agg zero (agg_opt agg zero a b₂) b₁ := by
    intro a b₁ b₂
    cases b₁ with
    | none => cases b₂ <;> rfl
    | some v₁ =>
        cases b₂ with
        | none => rfl
        | some v₂ =>
            simp only [agg_opt, Option.getD_some]
            rw [hassoc, hcomm v₁ v₂, ← hassoc]
  funext k
  rw [agg_dicts_foldl_pointwise, agg_dicts_foldl_pointwise]
  exact foldl_right_comm (agg_opt agg zero) rc (hperm.map _) (init k)

/-- A concrete partial accumulator holding only key `0`. -/
def d1C2 : Nat → Option Nat := fun k => if k = 0 then some 1 else none

/-- A concrete partial accumulator holding keys `0` and `1`. -/
def d2C2 : Nat → Option Nat := fun k => if k ≤ 1 then some 2 else none

/-- The empty initial accumulator. -/
def initC2 : Nat → Option Nat := fun _ => none

/-- Witness for C2: reducing two concrete partial accumulators in either
order yields the same result. -/
theorem agg_dicts_reduce_perm_invariant_witness :
    [d1C2, d2C2].foldl (agg_dicts (fun a b => a + b) 0) initC2
      = [d2C2, d1C2].foldl (agg_dicts (fun a b => a + b) 0) initC2 :=
  agg_dicts_reduce_perm_invariant (fun a b => a + b) 0
    (fun a b => Nat.add_comm a b) (fun a b c => Nat.add_assoc a b c)
    (List.Perm.swap d2C2 d1C2 []) initC2

/-- Chunk a list into consecutive blocks of `max 1 size` elements. -/
def chunks {α : Type} (size : Nat) (l : List α) : List (List α) :=
  if l.isEmpty then []
  else l.take (max 1 size) :: chunks size (l.drop (max 1 size))
termination_by l.length
decreasing_by
  cases l with
  | nil => simp [List.isEmpty] at *
  | cons a t => simp [List.length_drop]

/-- Modelled from the spec: `split_in_blocks` (`openquake.baselib.general`,
not in the excerpt).  Per §4.1, the sequence is cut into blocks targeting
`max(1, round(totalWeight / targetBlockCount))` items per block (sites all
have weight 1); rounding is half-up on naturals. -/
def split_in_blocks {α : Type} (l : List α) (hint : Nat) : List (List α) :=
  chunks ((2 * l.length + hint) / (2 * hint)) l

/-- The tiles built by `ClassicalTilingCalculator.execute`:
`split_in_blocks(self.sitecol, oq.concurrent_tasks or 1)` (Python's `or 1`
replaces a zero hint by 1). -/
def classical_tiling_tiles {α : Type} (sitecol : List α) (concurrent_tasks : Nat) :
    List (List α) :=
  split_in_blocks sitecol (if concurrent_tasks = 0 then 1 else concurrent_tasks)

/-- The running position offsets of `ClassicalTilingCalculator.execute`:
`position` starts at 0 and advances by `len(tile)` per tile; each tile is
recorded with its offset and size. -/
def tile_positions {α : Type} : Nat → List (List α) → List (Nat × Nat)
  | _, [] => []
  | pos, t :: ts => (pos, t.length) :: tile_positions (pos + t.length) ts

/-- The half-open index range `[pos, pos + len)`, as assigned to a tile by
`classical_tiling` via `range(position, position + len(sitecol))`. -/
def posRange (pos len : Nat) : List Nat :=
  (List.range len).map (fun j => pos + j)

/-- Concatenating two adjacent half-open ranges gives the combined range. -/
theorem posRange_append (pos a b : Nat) :
    posRange pos a ++ posRange (pos + a) b = posRange pos (a + b) := by
  simp only [posRange, List.range_add, List.map_append, List.map_map]
  congr 1
  apply List.map_congr_left
  intro j _
  simp
  omega

/-- Concatenating a chunked list restores the original list. -/
theorem chunks_join {α : Type} (size : Nat) (l : List α) :
    (chunks size l).flatten = l := by
  rw [chunks]
  by_cases h : l.isEmpty
  · rw [if_pos h]
    simp [List.isEmpty_iff.mp h]
  · rw [if_neg h, List.flatten_cons]
    rw [chunks_join size (l.drop (max 1 size))]
    exact List.take_append_drop _ l
termination_by l.length
decreasing_by
  cases l with
  | nil => simp [List.isEmpty] at h
  | cons a t => simp [List.length_drop]

/-- The ranges assigned by `tile_positions` concatenate to the single range
covering all positions from `pos`. -/
theorem tile_positions_join {α : Type} (tiles : List (List α)) :
    ∀ pos : Nat,
      ((tile_positions pos tiles).map (fun pr => posRange pr.1 pr.2)).flatten
        = posRange pos (tiles.map List.length).sum := by
  induction tiles with
  | nil => intro pos; simp [tile_positions, posRange]
  | cons t ts ih =>
      intro pos
      simp only [tile_positions, List.map_cons, List.sum_cons,
        List.flatten_cons]
      rw [ih (pos + t.length), posRange_append]

/-- Claim C3: the tiles built by `ClassicalTilingCalculator.execute`, with
their running position offsets, have half-open ranges
`[position, position + len(tile))` that partition `[0, number of sites)`
exactly: concatenated in order they enumerate every site position exactly
once, with no overlap and no gap. -/
theorem classical_tiling_positions_partition {α : Type}
    (sitecol : List α) (concurrent_tasks : Nat) :
    ((tile_positions 0 (classical_tiling_tiles sitecol concurrent_tasks)).map
        (fun pr => posRange pr.1 pr.2)).flatten
      = List.range sitecol.length := by
  rw [tile_positions_join]
  have hsum : ((classical_tiling_tiles sitecol concurrent_tasks).map
      List.length).sum = sitecol.length := by
    have hj := chunks_join
      ((2 * sitecol.length + (if concurrent_tasks = 0 then 1 else concurrent_tasks))
        / (2 * (if concurrent_tasks = 0 then 1 else concurrent_tasks))) sitecol
    calc ((classical_tiling_tiles sitecol concurrent_tasks).map List.length).sum
        = (classical_tiling_tiles sitecol concurrent_tasks).flatten.length := by
          rw [List.length_flatten]
      _ = sitecol.length := by
          unfold classical_tiling_tiles split_in_blocks
          rw [hj]
  rw [hsum]
  simp [posRange]

/-- NumPy fancy-index assignment `arr[idx] = vals`: write `vals[j]` at
position `idx[j]` for each `j` (elementwise, `idx` and `vals` of one length). -/
def setIndices {V : Type} (arr : List V) (idx : List Nat) (vals : List V) :
    List V :=
  (idx.zip vals).foldl (fun a p => a.set p.1 p.2) arr

/-- Unfolding one step of `setIndices`. -/
theorem setIndices_cons {V : Type} (arr : List V) (i : Nat) (v : V)
    (idx : List Nat) (vals : List V) :
    setIndices arr (i :: idx) (v :: vals) = setIndices (arr.set i v) idx vals :=
  rfl

/-- `setIndices` preserves the length of the array. -/
theorem setIndices_length {V : Type} :
    ∀ (idx : List Nat) (vals arr : List V),
      (setIndices arr idx vals).length = arr.length := by
  intro idx
  induction idx with
  | nil => intro vals arr; rfl
  | cons i idx ih =>
      intro vals arr
      cases vals with
      | nil => rfl
      | cons v vs => rw [setIndices_cons, ih, List.length_set]

/-- A half-open range starting one later, one shorter. -/
theorem posRange_succ (pos n : Nat) :
    posRange pos (n + 1) = pos :: posRange (pos + 1) n := by
  simp only [posRange, List.range_succ_eq_map, List.map_cons, List.map_map,
    Nat.add_zero]
  congr 1
  apply List.map_congr_left
  intro j _
  simp only [Function.comp_apply]
  omega

/-- Writing along the range `[pos, pos + len)` leaves every position outside
that range unchanged. -/
theorem setIndices_posRange_get_out {V : Type} (vals : List V) :
    ∀ (pos : Nat) (arr : List V) (i : Nat),
      i < pos ∨ pos + vals.length ≤ i →
      (setIndices arr (posRange pos vals.length) vals).get? i = arr.get? i := by
  induction vals with
  | nil => intro pos arr i _; simp [setIndices, posRange]
  | cons v vs ih =>
      intro pos arr i hi
      rw [List.length_cons] at hi
      rw [List.length_cons, posRange_succ, setIndices_cons]
      rw [ih (pos + 1) (arr.set pos v) i (by omega)]
      exact List.get?_set_ne v arr (by omega)

/-- Writing along the range `[pos, pos + len)` stores the `j`-th value at
position `pos + j`. -/
theorem setIndices_posRange_get_in {V : Type} (vals : List V) :
    ∀ (pos : Nat) (arr : List V) (j : Nat),
      j < vals.length → pos + vals.length ≤ arr.length →
      (setIndices arr (posRange pos vals.length) vals).get? (pos + j)
        = vals.get? j := by
  induction vals with
  | nil => intro pos arr j hj _; exact absurd hj (by simp)
  | cons v vs ih =>
      intro pos arr j hj hb
      rw [List.length_cons, posRange_succ, setIndices_cons]
      cases j with
      | zero =>
          show (setIndices (arr.set pos v) (posRange (pos + 1) vs.length)
            vs).get? pos = some v
          rw [setIndices_posRange_get_out vs (pos + 1) (arr.set pos v) pos
            (by omega)]
          exact List.get?_set_eq_of_lt v
            (by rw [List.length_cons] at hb; omega)
      | succ j =>
          show (setIndices (arr.set pos v) (posRange (pos + 1) vs.length)
            vs).get? (pos + (j + 1)) = vs.get? j
          rw [show pos + (j + 1) = (pos + 1) + j from by omega]
          exact ih (pos + 1) (arr.set pos v) j
            (by rw [List.length_cons] at hj; omega)
            (by rw [List.length_set]; rw [List.length_cons] at hb; omega)

/-- The result of one tile of `classical_tiling`: a dictionary
`(trt_id, gsim) -> T curves` carrying the `indices` attribute
`range(position, position + len(sitecol))`. -/
structure TileResult (K V : Type) where
  curves : K → Option (List V)
  indices : List Nat

/-- `agg_curves_by_trt_gsim(acc, curves_by_trt_gsim)` from `classical.py`:
the loop `for k in curves_by_trt_gsim: acc[k][curves_by_trt_gsim.indices] =
curves_by_trt_gsim[k]` writes, key by key, the tile's curves into the
positions `indices` of the full-size array, leaving all other keys of `acc`
untouched. -/
def agg_curves_by_trt_gsim {K V : Type} (acc : K → Option (List V))
    (t : TileResult K V) : K → Option (List V) :=
  fun k =>
    match t.curves k with
    | some vals => (acc k).map (fun arr => setIndices arr t.indices vals)
    | none => acc k

/-- Claim C4: for a key present in the tile result, `agg_curves_by_trt_gsim`
writes the tile's curves into exactly the slice
`[position, position + tile size)` recorded in `indices`, leaves every
position outside that slice unchanged, and leaves every key of `acc` that is
absent from the tile result unchanged — a positional scatter, not a value
merge. -/
theorem agg_curves_by_trt_gsim_scatter {K V : Type}
    (acc : K → Option (List V)) (t : TileResult K V) (k kAbsent : K)
    (pos T : Nat) (arr vals : List V) (i j : Nat)
    (hidx : t.indices = posRange pos T)
    (hv : t.curves k = some vals) (hvl : vals.length = T)
    (ha : acc k = some arr) (hbound : pos + T ≤ arr.length)
    (hAbsent : t.curves kAbsent = none) :
    agg_curves_by_trt_gsim acc t k = some (setIndices arr t.indices vals)
    ∧ (setIndices arr t.indices vals).length = arr.length
    ∧ (j < T → (setIndices arr t.indices vals).get? (pos + j) = vals.get? j)
    ∧ (i < pos ∨ pos + T ≤ i →
        (setIndices arr t.indices vals).get? i = arr.get? i)
    ∧ agg_curves_by_trt_gsim acc t kAbsent = acc kAbsent := by
  subst hvl
  refine ⟨?_, ?_, ?_, ?_, ?_⟩
  · simp [agg_curves_by_trt_gsim, hv, ha]
  · rw [hidx]; exact setIndices_length _ _ _
  · intro hj
    rw [hidx]
    exact setIndices_posRange_get_in vals pos arr j hj hbound
  · intro hi
    rw [hidx]
    exact setIndices_posRange_get_out vals pos arr i hi
  · simp [agg_curves_by_trt_gsim, hAbsent]

/-- A concrete full-size accumulator with two keys and four sites. -/
def accC4 : Nat → Option (List Nat) := fun k =>
  if k = 0 then some [10, 11, 12, 13]
  else if k = 1 then some [20, 21, 22, 23] else none

/-- A concrete tile result for sites 1 and 2, holding only key `0`. -/
def tC4 : TileResult Nat Nat :=
  { curves := fun k => if k = 0 then some [7, 8] else none
    indices := posRange 1 2 }

/-- Witness for C4: the tile's two curves land at positions 1 and 2 of key
`0`'s array, everything else is unchanged. -/
theorem agg_curves_by_trt_gsim_scatter_witness :
    agg_curves_by_trt_gsim accC4 tC4 0 = some [10, 7, 8, 13]
    ∧ agg_curves_by_trt_gsim accC4 tC4 1 = accC4 1 := by
  have h := agg_curves_by_trt_gsim_scatter accC4 tC4 0 1 1 2
    [10, 11, 12, 13] [7, 8] 3 1 rfl rfl rfl rfl (by decide) rfl
  exact ⟨h.1.trans (by decide), h.2.2.2.2⟩

/-- A tectonic region model, identified by its id. -/
structure TrtModel where
  id : Nat

/-- `is_effective_trt_model(result_dict, trt_model)` from `classical.py`:
`any(trt_model.id == trt_id for trt_id, _gsim in result_dict)`.  Iterating a
Python dict yields its keys, so the dictionary is embedded by its list of
keys `(trt_id, gsim)`. -/
def is_effective_trt_model {G : Type} (result_keys : List (Nat × G))
    (trt_model : TrtModel) : Bool :=
  result_keys.any (fun kg => trt_model.id == kg.1)

/-- Claim C7: `is_effective_trt_model(result_dict, trt_model)` holds if and
only if some key `(trt_id, gsim)` of the result dictionary has `trt_id` equal
to `trt_model.id` (this is the predicate `classical_tiling` hands to
`get_rlzs_assoc` to re-derive the realizations effective inside the tile). -/
theorem is_effective_trt_model_iff {G : Type} (result_keys : List (Nat × G))
    (trt_model : TrtModel) :
    is_effective_trt_model result_keys trt_model = true
      ↔ ∃ kg ∈ result_keys, trt_model.id = kg.1 := by
  simp [is_effective_trt_model, List.any_eq_true]

/-- A logic-tree realization: ordinal and logic-tree weight. -/
structure Realization where
  ordinal : Nat
  weight : ℚ

/-- The configuration fields of `OqParam` read by
`ClassicalCalculator.post_execute`. -/
structure OqParam where
  number_of_logic_tree_samples : Nat
  mean_hazard_curves : Bool
  quantile_hazard_curves : List ℚ
  imtls : List String

/-- The value at point `i` of each curve in a list (out-of-range reads 0). -/
def column (values : List (List ℚ)) (i : Nat) : List ℚ :=
  values.map (fun row => row.getD i 0)

/-- Modelled from the spec: `scientific.mean_curve`
(`openquake.risklib.scientific`, not in the excerpt).  Per §4.5,
`mean[i] = Σ_r weight[r]·value[r][i] / Σ_r weight[r]`; `weights = None`
signals Monte-Carlo sampling and the unweighted arithmetic mean is used. -/
def mean_curve (values : List (List ℚ)) (weights : Option (List ℚ)) :
    List ℚ :=
  (List.range ((values.head?.map List.length).getD 0)).map (fun i =>
    match weights with
    | none => (column values i).sum / (values.length : ℚ)
    | some ws =>
        ((ws.zip (column values i)).map (fun p => p.1 * p.2)).sum / ws.sum)

/-- The statistics computed by `ClassicalCalculator.post_execute`:
`self.mean_curves` (`none` when never assigned) and `self.quantile`
(`none` in the single-realization branch, which returns before the
`self.quantile = ...` assignments run). -/
structure PostResult where
  mean_curves : Option (String → List ℚ)
  quantile : Option (List (ℚ × (String → List ℚ)))

/-- `ClassicalCalculator.post_execute` from `classical.py`, from the point
where `curves_by_rlz` is available (`rlzs_assoc.combine_curves` lives outside
the excerpt, so the per-realization curves are taken as input, listed in the
order of `rlzs`); storage/export side effects are dropped.  `zc` is the
zero-curves template `numpy.array(zc)`; `quantile_curve_fn` stands for
`scientific.quantile_curve`, whose interpolation rule the spec leaves open. -/
def post_execute
    (quantile_curve_fn : List (List ℚ) → ℚ → Option (List ℚ) → List ℚ)
    (oq : OqParam) (zc : String → List ℚ)
    (rlzs : List Realization) (curves_by_rlz : List (String → List ℚ)) :
    PostResult :=
  if rlzs.length = 1 then
    { mean_curves := curves_by_rlz.head?, quantile := none }
  else
    let weights : Option (List ℚ) :=
      if oq.number_of_logic_tree_samples ≠ 0 then none
      else some (rlzs.map Realization.weight)
    { mean_curves :=
        if oq.mean_hazard_curves then
          some (fun imt =>
            if imt ∈ oq.imtls then
              mean_curve (curves_by_rlz.map (fun c => c imt)) weights
            else zc imt)
        else none
      quantile := some (oq.quantile_hazard_curves.map (fun q =>
        (q, fun imt =>
          if imt ∈ oq.imtls then
            quantile_curve_fn (curves_by_rlz.map (fun c => c imt)) q weights
          else zc imt))) }

/-- The mean curve of a post-execution result, read at intensity measure
type `imt` and point `i`. -/
def meanAt (r : PostResult) (imt : String) (i : Nat) : Option ℚ :=
  r.mean_curves.bind (fun m => (m imt).get? i)

/-- Claim C5: with exactly one realization, `post_execute` propagates that
single realization's curves unchanged as the mean result and returns without
computing any quantile or other aggregate statistics. -/
theorem post_execute_single_rlz_passthrough
    (quantile_curve_fn : List (List ℚ) → ℚ → Option (List ℚ) → List ℚ)
    (oq : OqParam) (zc : String → List ℚ)
    (rlzs : List Realization) (c : String → List ℚ)
    (h1 : rlzs.length = 1) :
    (post_execute quantile_curve_fn oq zc rlzs [c]).mean_curves = some c
    ∧ (post_execute quantile_curve_fn oq zc rlzs [c]).quantile = none := by
  rw [post_execute, if_pos h1]
  exact ⟨rfl, rfl⟩

/-- A trivial stand-in for `scientific.quantile_curve`. -/
def qcW : List (List ℚ) → ℚ → Option (List ℚ) → List ℚ := fun _ _ _ => []

/-- A zero-curves template. -/
def zcW : String → List ℚ := fun _ => [0]

/-- Witness for C5: one realization, its curves pass through as the mean and
no quantile statistics appear. -/
theorem post_execute_single_rlz_passthrough_witness :
    (post_execute qcW ⟨0, true, [1/2], ["PGA"]⟩ zcW [⟨0, 1⟩]
        [fun _ => [1, 2]]).mean_curves = some (fun _ => [1, 2])
    ∧ (post_execute qcW ⟨0, true, [1/2], ["PGA"]⟩ zcW [⟨0, 1⟩]
        [fun _ => [1, 2]]).quantile = none :=
  post_execute_single_rlz_passthrough qcW ⟨0, true, [1/2], ["PGA"]⟩ zcW
    [⟨0, 1⟩] (fun _ => [1, 2]) rfl

/-- Reading the mean curve at a point yields the spec's formula. -/
theorem mean_curve_get {values : List (List ℚ)} {L : Nat}
    (w : Option (List ℚ)) (hne : values ≠ [])
    (hlen : ∀ row ∈ values, row.length = L) {i : Nat} (hi : i < L) :
    (mean_curve values w).get? i
      = some (match w with
        | none => (column values i).sum / (values.length : ℚ)
        | some ws =>
            ((ws.zip (column values i)).map (fun p => p.1 * p.2)).sum
              / ws.sum) := by
  have hn : (values.head?.map List.length).getD 0 = L := by
    cases values with
    | nil => exact absurd rfl hne
    | cons r rs => simp [hlen r (by simp)]
  rw [mean_curve, hn, List.get?_map, List.get?_range hi]
  cases w <;> rfl

/-- Claim C6: with more than one realization, the mean curve at each point
equals the weighted mean `Σ_r weight[r]·value[r][i] / Σ_r weight[r]`, the
weights being the realizations' logic-tree weights, unless the logic tree
uses Monte-Carlo sampling (`number_of_logic_tree_samples` nonzero), in which
case `weights = None` is passed and the unweighted arithmetic mean is used. -/
theorem post_execute_mean_formula
    (quantile_curve_fn : List (List ℚ) → ℚ → Option (List ℚ) → List ℚ)
    (oq : OqParam) (zc : String → List ℚ)
    (rlzs : List Realization) (curves_by_rlz : List (String → List ℚ))
    (imt : String) (i L : Nat)
    (hn : rlzs.length ≠ 1)
    (hm : oq.mean_hazard_curves = true)
    (himt : imt ∈ oq.imtls)
    (hne : curves_by_rlz ≠ [])
    (hL : ∀ c ∈ curves_by_rlz, (c imt).length = L)
    (hi : i < L) :
    meanAt (post_execute quantile_curve_fn oq zc rlzs curves_by_rlz) imt i
      = some
        (if oq.number_of_logic_tree_samples ≠ 0 then
          (curves_by_rlz.map (fun c => (c imt).getD i 0)).sum
            / (curves_by_rlz.length : ℚ)
        else
          (((rlzs.map Realization.weight).zip
              (curves_by_rlz.map (fun c => (c imt).getD i 0))).map
            (fun p => p.1 * p.2)).sum
            / (rlzs.map Realization.weight).sum) := by
  have hvne : curves_by_rlz.map (fun c => c imt) ≠ [] := by
    simpa using hne
  have hvlen : ∀ row ∈ curves_by_rlz.map (fun c => c imt), row.length = L := by
    intro row hrow
    rcases List.mem_map.mp hrow with ⟨c, hc, rfl⟩
    exact hL c hc
  rw [meanAt, post_execute, if_neg hn]
  simp only [hm, if_true, Option.some_bind]
  rw [if_pos himt, mean_curve_get _ hvne hvlen hi]
  by_cases hs : oq.number_of_logic_tree_samples ≠ 0
  · simp only [hs, if_true, if_pos hs, column, List.map_map, List.length_map]
    rfl
  · simp only [hs, if_false, if_neg hs, column, List.map_map]
    rfl

/-- Two realizations with logic-tree weights 0.6 and 0.4. -/
def rlzsW6 : List Realization := [⟨0, 3/5⟩, ⟨1, 2/5⟩]

/-- Per-point curves `[1.0]` for the first realization. -/
def cW61 : String → List ℚ := fun _ => [1]

/-- Per-point curves `[2.0]` for the second realization. -/
def cW62 : String → List ℚ := fun _ => [2]

/-- Configuration with full enumeration (no sampling) and mean curves on. -/
def oqW6 : OqParam := ⟨0, true, [], ["PGA"]⟩

/-- Witness for C6: two realizations with weights 0.6 and 0.4 and per-point
values `[1.0]` and `[2.0]` give mean `[1.4]`. -/
theorem post_execute_mean_formula_witness :
    meanAt (post_execute qcW oqW6 zcW rlzsW6 [cW61, cW62]) "PGA" 0
      = some (7/5) := by
  have h := post_execute_mean_formula qcW oqW6 zcW rlzsW6 [cW61, cW62]
    "PGA" 0 1 (by simp [rlzsW6]) rfl (by simp [oqW6])
    (by simp)
    (by
      intro c hc
      simp only [List.mem_cons, List.not_mem_nil, or_false] at hc
      rcases hc with rfl | rfl <;> rfl)
    Nat.one_pos
  rw [h]
  norm_num [rlzsW6, cW61, cW62, oqW6]

/-- An asset, identified by its id. -/
structure Asset where
  id : Nat

/-- `lpa(assets, means, stddevs)` from `scenario_risk.py`:
`[(a.id, m, s) for a, m, s in zip(assets, means, stddevs)]`; Python's `zip`
truncates to its shortest argument. -/
def lpa {M S : Type} (assets : List Asset) (means : List M)
    (stddevs : List S) : List (Nat × M × S) :=
  ((assets.zip means).zip stddevs).map (fun p => (p.1.1.id, p.1.2, p.2))

/-- One output of `riskmodel.gen_outputs` as consumed by `scenario_risk`:
the assets covered, the loss matrix (one row per asset) and, when insured
losses are computed, the insured loss matrix. -/
structure RiskOutput where
  assets : List Asset
  loss_matrix : List (List ℚ)
  insured_loss_matrix : Option (List (List ℚ))

/-- Per-row means of a matrix, `matrix.mean(axis=1)`. -/
def rowMeans (m : List (List ℚ)) : List ℚ :=
  m.map (fun row => row.sum / (row.length : ℚ))

/-- The list `scenario_risk` stores under `('asset-loss', loss_type)` for one
output: `means = out.loss_matrix.mean(axis=1),` — the trailing comma wraps
the per-asset mean array in a ONE-element tuple — then
`lpa(assets, means, stddevs)`.  The per-row standard deviation
`std(ddof=1, axis=1)` involves a square root and is kept abstract as
`std_fn`. -/
def asset_loss_triples (std_fn : List (List ℚ) → List ℚ) (out : RiskOutput) :
    List (Nat × List ℚ × ℚ) :=
  lpa out.assets [rowMeans out.loss_matrix] (std_fn out.loss_matrix)

/-- The list stored under `('asset-ins', loss_type)` when insured losses are
present, built the same way from the insured loss matrix. -/
def asset_ins_triples (std_fn : List (List ℚ) → List ℚ) (out : RiskOutput) :
    Option (List (Nat × List ℚ × ℚ)) :=
  out.insured_loss_matrix.map (fun im =>
    lpa out.assets [rowMeans im] (std_fn im))

/-- Claim C8: for a risk output with a non-empty asset list, the list under
`('asset-loss', loss_type)` — and under `('asset-ins', loss_type)` when
insured losses are present — contains exactly one triple, however many
assets the output covers: the means argument of `lpa` is a one-element
tuple, and `zip` truncates to the shortest argument. -/
theorem scenario_risk_lpa_truncates
    (std_fn : List (List ℚ) → List ℚ) (out : RiskOutput)
    (hne : out.assets ≠ [])
    (hstd : (std_fn out.loss_matrix).length = out.assets.length)
    (hins : ∀ im, out.insured_loss_matrix = some im →
      (std_fn im).length = out.assets.length) :
    (asset_loss_triples std_fn out).length = 1
    ∧ (asset_ins_triples std_fn out).map List.length
        = out.insured_loss_matrix.map (fun _ => 1) := by
  have hpos : 0 < out.assets.length := List.length_pos.mpr hne
  have hlen : ∀ (m1 : List ℚ) (stds : List ℚ),
      stds.length = out.assets.length →
      (lpa out.assets [m1] stds).length = 1 := by
    intro m1 stds h
    simp only [lpa, List.length_map, List.length_zip, List.length_singleton, h]
    omega
  refine ⟨hlen _ _ hstd, ?_⟩
  cases him : out.insured_loss_matrix with
  | none => simp [asset_ins_triples, him]
  | some im =>
      simp only [asset_ins_triples, him, Option.map_some']
      exact congrArg some (hlen _ _ (hins im him))

/-- A concrete risk output covering three assets, with insured losses. -/
def outC8 : RiskOutput :=
  { assets := [⟨1⟩, ⟨2⟩, ⟨3⟩]
    loss_matrix := [[1, 2], [3, 4], [5, 6]]
    insured_loss_matrix := some [[1, 1], [2, 2], [3, 3]] }

/-- A stand-in for `std(ddof=1, axis=1)`: one value per matrix row. -/
def stdC8 : List (List ℚ) → List ℚ := fun m => m.map (fun _ => 0)

/-- Witness for C8: with three assets both per-asset lists still hold exactly
one triple. -/
theorem scenario_risk_lpa_truncates_witness :
    (asset_loss_triples stdC8 outC8).length = 1
    ∧ (asset_ins_triples stdC8 outC8).map List.length = some 1 := by
  have h := scenario_risk_lpa_truncates stdC8 outC8 (by simp [outC8]) rfl
    (by intro im him; cases him; rfl)
  exact ⟨h.1, h.2.trans rfl⟩

/-- A directory tree: an entry is a file or a directory of named entries. -/
inductive FSTree where
  | file : FSTree
  | dir : List (String × FSTree) → FSTree

/-- `collect_files(dirpath, cond)` from `readinput.py`, over a directory
listing: a file directly in `dirpath` is kept when `cond` accepts its full
name; for a subdirectory the recursive call `collect_files(fullname)` omits
`cond`, falling back to the accept-everything default
`lambda fullname: True`. -/
def collect_files (dirpath : String) :
    List (String × FSTree) → (String → Bool) → List String
  | [], _ => []
  | (name, FSTree.file) :: rest, cond =>
      (if cond (dirpath ++ "/" ++ name) then [dirpath ++ "/" ++ name] else [])
        ++ collect_files dirpath rest cond
  | (name, FSTree.dir sub) :: rest, cond =>
      collect_files (dirpath ++ "/" ++ name) sub (fun _ => true)
        ++ collect_files dirpath rest cond

/-- Every file at any depth below a directory listing, unconditionally. -/
def deepFiles (dirpath : String) : List (String × FSTree) → List String
  | [] => []
  | (name, FSTree.file) :: rest =>
      (dirpath ++ "/" ++ name) :: deepFiles dirpath rest
  | (name, FSTree.dir sub) :: rest =>
      deepFiles (dirpath ++ "/" ++ name) sub ++ deepFiles dirpath rest

/-- With the accept-everything default condition, `collect_files` returns
every file at any depth. -/
theorem collect_files_true_eq_deep :
    ∀ (es : List (String × FSTree)) (dirpath : String),
      collect_files dirpath es (fun _ => true) = deepFiles dirpath es
  | [], _ => by rw [collect_files, deepFiles]
  | (name, FSTree.file) :: rest, dirpath => by
      rw [collect_files, deepFiles,
        collect_files_true_eq_deep rest dirpath]
      rfl
  | (name, FSTree.dir sub) :: rest, dirpath => by
      rw [collect_files, deepFiles,
        collect_files_true_eq_deep sub (dirpath ++ "/" ++ name),
        collect_files_true_eq_deep rest dirpath]

/-- Claim C9: `collect_files(dirpath, cond)` applies `cond` only to the files
directly contained in `dirpath`: each direct file is kept iff `cond` accepts
it, while every file inside any subdirectory, at any depth, is included
regardless of `cond`, because the recursive call omits the `cond` argument
and falls back to the accept-everything default. -/
theorem collect_files_cond_only_top_level
    (es : List (String × FSTree)) :
    ∀ (dirpath : String) (cond : String → Bool),
      collect_files dirpath es cond
        = es.flatMap (fun e =>
            match e.2 with
            | FSTree.file =>
                if cond (dirpath ++ "/" ++ e.1) then [dirpath ++ "/" ++ e.1]
                else []
            | FSTree.dir sub => deepFiles (dirpath ++ "/" ++ e.1) sub) := by
  induction es with
  | nil => intro dirpath cond; rw [collect_files]; rfl
  | cons e rest ih =>
      intro dirpath cond
      rcases e with ⟨name, t⟩
      cases t with
      | file =>
          rw [collect_files, List.flatMap_cons, ih]
      | dir sub =>
          rw [collect_files, List.flatMap_cons, ih,
            collect_files_true_eq_deep sub (dirpath ++ "/" ++ name)]

/-- The failure modes of `get_params`. -/
inductive GetParamsError where
  | ioError (path : String)
  | indexError
deriving DecidableEq

/-- The filesystem as seen by `get_params`: which paths exist and, for a zip
archive, the candidate ini files `extract_from_zip` returns (they are
freshly extracted, hence they exist). -/
structure FileSys where
  file_exists : String → Bool
  extracted : String → List String
  extracted_exist : ∀ z f, f ∈ extracted z → file_exists f = true

/-- The existence check of `get_params` from `readinput.py`:
`not_found = [ini for ini in job_inis if not os.path.exists(ini)]`; when
every file is missing, `IOError('File not found: %s' % not_found[0])` is
raised — with the caveat that evaluating `not_found[0]` on an empty list
raises `IndexError` before the `IOError` is built.  Parameter parsing is
elided: `ConfigParser.read` silently skips files it cannot open, so the
successful value is the list of files actually parsed. -/
def get_params_check (fs : FileSys) (inis : List String) :
    Except GetParamsError (List String) :=
  if (inis.filter (fun ini => !fs.file_exists ini)).length = inis.length then
    match inis.filter (fun ini => !fs.file_exists ini) with
    | [] => Except.error GetParamsError.indexError
    | f :: _ => Except.error (GetParamsError.ioError f)
  else Except.ok (inis.filter fs.file_exists)

/-- `get_params(job_inis)` from `readinput.py`: a single `.zip` argument is
first replaced by the candidate ini files extracted from the archive
(`zipfile.ZipFile` raises `IOError` when the archive itself is missing);
then the existence check runs. -/
def get_params (fs : FileSys) (job_inis : List String) :
    Except GetParamsError (List String) :=
  if job_inis.length == 1 && (job_inis.headD "").endsWith ".zip" then
    if fs.file_exists (job_inis.headD "") then
      get_params_check fs (fs.extracted (job_inis.headD ""))
    else Except.error (GetParamsError.ioError (job_inis.headD ""))
  else get_params_check fs job_inis

/-- Whether a `get_params` outcome is a raised `IOError`. -/
def raises_io_error {α : Type} : Except GetParamsError α → Bool
  | Except.error (GetParamsError.ioError _) => true
  | _ => false

/-- A filesystem on which no path exists. -/
def fsEmpty : FileSys :=
  { file_exists := fun _ => false
    extracted := fun _ => []
    extracted_exist := by intro z f h; simp at h }

/-- Counterexample to C10 as stated: on the empty list of configuration
files, none of the given files exists (vacuously), yet `get_params` does not
raise `IOError` — the message formatting `not_found[0]` fails with
`IndexError` first. -/
theorem get_params_empty_list_counterexample :
    get_params fsEmpty [] = Except.error GetParamsError.indexError
    ∧ raises_io_error (get_params fsEmpty []) = false := by
  constructor <;> rfl

/-- Claim C10 (amended): for every NON-EMPTY list of configuration file
paths that is not a single `.zip` archive, `get_params` raises `IOError` if
and only if none of the given files exists; if at least one file exists, the
non-existing ones are silently ignored and parsing proceeds with exactly the
files that do exist.  (On the empty list the code raises `IndexError`
instead of `IOError`.) -/
theorem get_params_io_error_iff (fs : FileSys) (job_inis : List String)
    (hne : job_inis ≠ [])
    (hnz : (job_inis.length == 1 && (job_inis.headD "").endsWith ".zip")
      = false) :
    (raises_io_error (get_params fs job_inis) = true
      ↔ job_inis.all (fun ini => !fs.file_exists ini) = true)
    ∧ (job_inis.any fs.file_exists = true →
        get_params fs job_inis = Except.ok (job_inis.filter fs.file_exists)) := by
  have h0 : get_params fs job_inis = get_params_check fs job_inis := by
    rw [get_params, hnz]
    rfl
  rw [h0]
  by_cases hall : ∀ ini ∈ job_inis, fs.file_exists ini = false
  · have hfeq : job_inis.filter (fun ini => !fs.file_exists ini) = job_inis :=
      List.filter_eq_self.mpr (by intro a ha; simp [hall a ha])
    rw [get_params_check, hfeq, if_pos rfl]
    cases job_inis with
    | nil => exact absurd rfl hne
    | cons f rest =>
        constructor
        · simp only [raises_io_error, true_iff]
          rw [List.all_eq_true]
          intro x hx
          simp [hall x hx]
        · intro hany
          rcases List.any_eq_true.mp hany with ⟨x, hx, hex⟩
          exact absurd (hall x hx) (by simp [hex])
  · have hlt : (job_inis.filter (fun ini => !fs.file_exists ini)).length
        ≠ job_inis.length := by
      intro heq
      exact hall (by
        intro a ha
        have := List.filter_length_eq_length.mp heq a ha
        simpa using this)
    rw [get_params_check, if_neg hlt]
    constructor
    · constructor
      · intro h
        simp [raises_io_error] at h
      · intro h
        exfalso
        apply hall
        intro a ha
        simpa using List.all_eq_true.mp h a ha
    · intro _; rfl

/-- A filesystem on which exactly the path `job.ini` exists. -/
def fsW10 : FileSys :=
  { file_exists := fun p => p == "job.ini"
    extracted := fun _ => []
    extracted_exist := by intro z f h; simp at h }

/-- Witness for C10 (amended): with one existing and one missing file, no
`IOError` is raised and parsing proceeds with the existing file only. -/
theorem get_params_io_error_iff_witness :
    raises_io_error (get_params fsW10 ["missing.ini", "job.ini"]) = false
    ∧ get_params fsW10 ["missing.ini", "job.ini"]
        = Except.ok ["job.ini"] := by
  have h := get_params_io_error_iff fsW10 ["missing.ini", "job.ini"]
    (by simp) rfl
  refine ⟨?_, (h.2 (by decide)).trans rfl⟩
  cases hr : raises_io_error (get_params fsW10 ["missing.ini", "job.ini"]) with
  | false => rfl
  | true => exact absurd (h.1.mp hr) (by decide)
